import Mathlib

/-!
Verification development for the analytics core of the social post tracker
(`src/app.py`).  The Python functions are shallowly embedded as executable
Lean definitions: pandas data frames become lists of structures, machine
floats on the (exactly representable) values at issue become rationals, and
fallible conversions return `Except`.  Comments on each definition name the
source function and lines it embeds.
-/

/-- Insertion of an element into a list sorted ascending by `key`: the new
element is placed before the first element whose key is not smaller. -/
def insOrd {α β : Type} [LinearOrder β] (key : α → β) (x : α) : List α → List α
  | [] => [x]
  | y :: ys => if key x ≤ key y then x :: y :: ys else y :: insOrd key x ys

/-- Ascending insertion sort by `key`. -/
def sortAsc {α β : Type} [LinearOrder β] (key : α → β) : List α → List α
  | [] => []
  | x :: xs => insOrd key x (sortAsc key xs)

/-- Model of the descending sort performed by pandas
`sort_values(..., ascending=False)` at its call sites in the source, which
pass no `kind` and therefore sort with the default `kind="quicksort"`
(numpy introsort).  pandas `nargsort` reverses the array, argsorts it
ascending and reverses the resulting indexer again (pandas GH 35922), so
the order of rows with equal keys is whatever tie order the argsort
produces — and numpy documents quicksort as NOT stable: it degenerates to
a stable insertion sort only for arrays below its cutoff of about 16
elements.  This definition fixes one admissible outcome, the stable one;
the theorems proved over it do not depend on the order of equal keys (they
use only which elements appear, via `pandasSortDesc_perm`).  The
unspecified tie order above the cutoff is recorded against the
stable-tie-breaking claims as a divergence of the code from the spec. -/
def pandasSortDesc {α β : Type} [LinearOrder β] (key : α → β) (l : List α) : List α :=
  (sortAsc key l.reverse).reverse

theorem insOrd_perm {α β : Type} [LinearOrder β] (key : α → β) (x : α) (l : List α) :
    (insOrd key x l).Perm (x :: l) := by
  induction l with
  | nil => simp [insOrd]
  | cons y ys ih =>
    by_cases h : key x ≤ key y
    · simp [insOrd, h]
    · simp only [insOrd, if_neg h]
      exact (ih.cons y).trans (List.Perm.swap x y ys)

theorem sortAsc_perm {α β : Type} [LinearOrder β] (key : α → β) (l : List α) :
    (sortAsc key l).Perm l := by
  induction l with
  | nil => simp [sortAsc]
  | cons x xs ih =>
    exact (insOrd_perm key x (sortAsc key xs)).trans (ih.cons x)

theorem pandasSortDesc_perm {α β : Type} [LinearOrder β] (key : α → β) (l : List α) :
    (pandasSortDesc key l).Perm l := by
  unfold pandasSortDesc
  exact (List.reverse_perm _).trans ((sortAsc_perm key l.reverse).trans (List.reverse_perm l))

/-- First-occurrence deduplication, generalized over an accumulator of
already-seen values. -/
def dedupFirstGo {α : Type} [DecidableEq α] (seen : List α) : List α → List α
  | [] => []
  | x :: xs => if x ∈ seen then dedupFirstGo seen xs else x :: dedupFirstGo (x :: seen) xs

/-- Distinct values of a list in order of first occurrence.  Models the key
order produced by pandas `value_counts`: since pandas GH 39009 the counting
hash table tracks the order in which keys are first seen, so the pre-sort
key array lists distinct values in first-occurrence order. -/
def dedupFirst {α : Type} [DecidableEq α] (l : List α) : List α := dedupFirstGo [] l

theorem mem_dedupFirstGo {α : Type} [DecidableEq α] (l : List α) :
    ∀ (seen : List α) (a : α), a ∈ dedupFirstGo seen l ↔ a ∈ l ∧ a ∉ seen := by
  induction l with
  | nil => intro seen a; simp [dedupFirstGo]
  | cons x xs ih =>
    intro seen a
    by_cases hx : x ∈ seen
    · simp only [dedupFirstGo, if_pos hx, ih, List.mem_cons]
      constructor
      · rintro ⟨ha, hs⟩; exact ⟨Or.inr ha, hs⟩
      · rintro ⟨rfl | ha, hs⟩
        · exact absurd hx hs
        · exact ⟨ha, hs⟩
    · simp only [dedupFirstGo, if_neg hx, List.mem_cons, ih]
      constructor
      · rintro (rfl | ⟨ha, hs⟩)
        · exact ⟨Or.inl rfl, hx⟩
        · exact ⟨Or.inr ha, fun h => hs (Or.inr h)⟩
      · rintro ⟨rfl | ha, hs⟩
        · exact Or.inl rfl
        · by_cases hax : a = x
          · exact Or.inl hax
          · exact Or.inr ⟨ha, by simp [hax, hs]⟩

theorem mem_dedupFirst {α : Type} [DecidableEq α] (l : List α) (a : α) :
    a ∈ dedupFirst l ↔ a ∈ l := by
  simp [dedupFirst, mem_dedupFirstGo]

/-- Model of the Python values that can reach the shared division helper
`sdiv` (src/app.py lines 112-117): integers, finite floats (the exactly
representable values at issue, modelled as rationals), strings and None.
NaN and infinite floats are outside the model. -/
inductive PyVal : Type
  | int (n : ℤ)
  | float (q : ℚ)
  | str (s : String)
  | none
  deriving DecidableEq

/-- Value of a run of decimal digit characters. -/
def digitsVal (cs : List Char) : ℕ := cs.foldl (fun acc c => 10 * acc + (c.toNat - 48)) 0

/-- Strip leading and trailing whitespace, as Python `float(str)` does
before parsing. -/
def stripWS (cs : List Char) : List Char :=
  ((cs.dropWhile Char.isWhitespace).reverse.dropWhile Char.isWhitespace).reverse

/-- Split a character list at the first exponent marker `e`/`E`, returning
the mantissa part and, when a marker is present, the exponent part. -/
def splitAtExpMark : List Char → List Char × Option (List Char)
  | [] => ([], Option.none)
  | c :: cs =>
    if c == 'e' || c == 'E' then ([], some cs)
    else
      let r := splitAtExpMark cs
      (c :: r.1, r.2)

/-- Parse an unsigned decimal integer (nonempty digit run). -/
def parseUInt (cs : List Char) : Option ℤ :=
  if !cs.isEmpty && cs.all Char.isDigit then some (digitsVal cs : ℤ) else Option.none

/-- Parse an optionally signed decimal integer, as in a float exponent. -/
def parseSInt : List Char → Option ℤ
  | '+' :: r => parseUInt r
  | '-' :: r => (parseUInt r).map Neg.neg
  | cs => parseUInt cs

/-- Parse an unsigned mantissa: digits, optionally followed by a point and
further digits, with at least one digit overall. -/
def parseMant (cs : List Char) : Option ℚ :=
  let ip := cs.takeWhile Char.isDigit
  let rest := cs.dropWhile Char.isDigit
  match rest with
  | [] => if ip.isEmpty then Option.none else some ((digitsVal ip : ℚ))
  | c :: frac =>
    if c == '.' then
      if frac.all Char.isDigit then
        if ip.isEmpty && frac.isEmpty then Option.none
        else some ((digitsVal ip : ℚ) + (digitsVal frac : ℚ) / ((10 : ℚ) ^ frac.length))
      else Option.none
    else Option.none

/-- Integer power of ten as a rational. -/
def qpow10 (e : ℤ) : ℚ :=
  if 0 ≤ e then (10 : ℚ) ^ e.toNat else ((10 : ℚ) ^ (-e).toNat)⁻¹

/-- Model of Python `float` applied to a string: optional surrounding
whitespace, optional sign, digits with an optional point, and an optional
signed exponent.  The special forms `inf`, `nan` and digit underscores,
which have no finite rational meaning or are rare legacy syntax, are not
modelled and parse to `none` (the caller of `sdiv` then takes the
exception branch). -/
def pyFloatOfString (s : String) : Option ℚ :=
  let body : List Char → Option ℚ := fun cs =>
    let p := splitAtExpMark cs
    match p.2 with
    | Option.none => parseMant p.1
    | some ec =>
      match parseMant p.1, parseSInt ec with
      | some m, some e => some (m * qpow10 e)
      | _, _ => Option.none
  match stripWS s.toList with
  | '+' :: rest => body rest
  | '-' :: rest => (body rest).map Neg.neg
  | cs => body cs

/-- Model of Python `float(x)` on a `PyVal`: numbers convert, strings are
parsed, `None` raises `TypeError` (modelled as `Except.error`). -/
def pyFloat : PyVal → Except Unit ℚ
  | .int n => .ok (n : ℚ)
  | .float q => .ok q
  | .str s =>
    match pyFloatOfString s with
    | some q => .ok q
    | Option.none => .error ()
  | .none => .error ()

/-- Embedding of `sdiv` (src/app.py lines 112-117): convert both arguments
with `float`, return `a/b` when `b` is nonzero and `0.0` when it is zero,
and return `0.0` whenever a conversion raises. -/
def sdiv (a b : PyVal) : ℚ :=
  match pyFloat a, pyFloat b with
  | .ok x, .ok y => if y = 0 then 0 else x / y
  | _, _ => 0

/-- AggregatedGroup: one row of the grouped frame `g` built in `insights`
(src/app.py lines 208-217), a dimension label with the four summed
metrics. -/
structure AggGroup where
  label : String
  reach : ℕ
  likes : ℕ
  follows_gained : ℕ
  email_captures : ℕ
  deriving DecidableEq

/-- Rate column `like_rate` (src/app.py line 215). -/
def like_rate (g : AggGroup) : ℚ := sdiv (.int g.likes) (.int g.reach)

/-- Rate column `follow_rate` (src/app.py line 216). -/
def follow_rate (g : AggGroup) : ℚ := sdiv (.int g.follows_gained) (.int g.reach)

/-- Rate column `capture_rate` (src/app.py line 217). -/
def capture_rate (g : AggGroup) : ℚ := sdiv (.int g.email_captures) (.int g.reach)

/-- Model of Python float division, which raises `ZeroDivisionError` on a
zero divisor. -/
def pyDiv (a b : ℚ) : Except Unit ℚ := if b = 0 then .error () else .ok (a / b)

/-- Embedding of the composite scorer (src/app.py lines 227-233): the
weights are divided by `max(wf+wc+wl, 1e-9)` and the score blends the
three rates of a group with the normalized weights. -/
def success_score (wf wc wl : ℚ) (g : AggGroup) : Except Unit ℚ :=
  let total := max (wf + wc + wl) (1 / 1000000000)
  match pyDiv wf total, pyDiv wc total, pyDiv wl total with
  | .ok nwf, .ok nwc, .ok nwl =>
    .ok (nwf * follow_rate g + nwc * capture_rate g + nwl * like_rate g)
  | _, _, _ => .error ()

/-- One post row as fetched for the Insights page (src/app.py lines
188-198): the categorical dimension value under consideration (a NULL in
the database is modelled as `Option.none`) and the four raw metrics. -/
structure SRow where
  label : Option String
  reach : ℕ
  likes : ℕ
  follows_gained : ℕ
  email_captures : ℕ
  deriving DecidableEq

/-- Normalization of a categorical dimension value (src/app.py line 211,
`fillna("Unlabeled").replace("", "Unlabeled")`): missing and empty values
become the literal label "Unlabeled". -/
def normLabel : Option String → String
  | Option.none => "Unlabeled"
  | some s => if s = "" then "Unlabeled" else s

/-- Embedding of the aggregation step of `insights` (src/app.py line 212):
pandas `groupby(col)[metrics].sum()` sums the four metrics per distinct
label and, with the default `sort=True`, emits one group per distinct
label in ascending label order. -/
def aggregate (rows : List SRow) : List AggGroup :=
  (sortAsc id (dedupFirst (rows.map (fun r => normLabel r.label)))).map
    (fun v =>
      { label := v
        reach := ((rows.filter (fun r => decide (normLabel r.label = v))).map SRow.reach).sum
        likes := ((rows.filter (fun r => decide (normLabel r.label = v))).map SRow.likes).sum
        follows_gained :=
          ((rows.filter (fun r => decide (normLabel r.label = v))).map SRow.follows_gained).sum
        email_captures :=
          ((rows.filter (fun r => decide (normLabel r.label = v))).map SRow.email_captures).sum })

/-- Outcome of the Insights ranking pipeline: the page either reports "No
posts for this window/filters yet." (src/app.py lines 200-201), or "All
groups were filtered out by the min reach threshold." (lines 236-237), or
renders the ranked table (lines 239-240). -/
inductive RankOutcome : Type
  | noData
  | allFiltered
  | ranked (rows : List AggGroup)
  deriving DecidableEq

/-- Embedding of the categorical-dimension Insights pipeline (src/app.py
lines 200-240): empty input reports no data; otherwise the rows are
aggregated, the groups with summed reach below the minimum-reach threshold
are dropped (line 235 keeps `reach >= min_reach`); if nothing remains, the
all-filtered warning is reported; otherwise the surviving groups are
sorted descending by the chosen ranking key and truncated to the top N. -/
def insightsPipeline (rows : List SRow) (minReach : ℕ) (key : AggGroup → ℚ)
    (topN : ℕ) : RankOutcome :=
  match rows with
  | [] => .noData
  | _ :: _ =>
    let gf := (aggregate rows).filter (fun x => decide (minReach ≤ x.reach))
    match gf with
    | [] => .allFiltered
    | _ :: _ => .ranked ((pandasSortDesc key gf).take topN)

/-- One post row as fetched for the Scorecard page (src/app.py lines
128-136): the posting date, counted in whole days with day 0 falling on a
Monday, and the four raw metrics. -/
structure TPost where
  date : ℤ
  reach : ℕ
  likes : ℕ
  follows_gained : ℕ
  email_captures : ℕ
  deriving DecidableEq

/-- Embedding of `monday_of` (src/app.py line 119): the Monday on or
before a date.  Dates are day numbers with day 0 on a Monday, so the
weekday of `d` is `d % 7`. -/
def monday_of (d : ℤ) : ℤ := d - d % 7

/-- The Monday on or after a date: the label pandas assigns a timestamp
under `resample("W-MON")`, whose weekly bins are anchored to end on a
Monday (weekly frequencies default to `closed="right"`, `label="right"`,
with bin edges stretched to the end of the anchor day, so each bin covers
the seven days ending on its labelling Monday). -/
def nextMonday (d : ℤ) : ℤ := monday_of (d + 6)

/-- WeeklyBucket: one row of the resampled frame `week` (src/app.py lines
153-154): a bucket label and the four summed metrics. -/
structure WBucket where
  label : ℤ
  reach : ℕ
  likes : ℕ
  follows_gained : ℕ
  email_captures : ℕ
  deriving DecidableEq

/-- Summed metrics of the posts that pandas places in the weekly bin
labeled `L`, namely those whose next Monday is `L`. -/
def bucketOf (posts : List TPost) (L : ℤ) : WBucket :=
  { label := L
    reach := ((posts.filter (fun p => decide (nextMonday p.date = L))).map TPost.reach).sum
    likes := ((posts.filter (fun p => decide (nextMonday p.date = L))).map TPost.likes).sum
    follows_gained :=
      ((posts.filter (fun p => decide (nextMonday p.date = L))).map TPost.follows_gained).sum
    email_captures :=
      ((posts.filter (fun p => decide (nextMonday p.date = L))).map TPost.email_captures).sum }

/-- Embedding of the weekly resampling of the Scorecard (src/app.py line
153), `df.set_index("post_datetime").resample("W-MON").sum(...)`: pandas
builds the complete range of weekly bins from the bin of the earliest
timestamp to the bin of the latest and sums each bin, so every bin in
between is emitted, including bins containing no posts, whose sums are
zero.  Output is in ascending bin order. -/
def weeklyResample (posts : List TPost) : List WBucket :=
  match posts with
  | [] => []
  | p :: ps =>
    let dmin := ps.foldl (fun m q => min m q.date) p.date
    let dmax := ps.foldl (fun m q => max m q.date) p.date
    let lo := nextMonday dmin
    let hi := nextMonday dmax
    (List.range (((hi - lo) / 7).toNat + 1)).map
      (fun i : ℕ => bucketOf posts (lo + 7 * (i : ℤ)))

/-- Apostrophe character, written via its code point. -/
def apoChar : Char := Char.ofNat 39

/-- Embedding of the STOPWORDS set (src/app.py lines 91-98). -/
def STOPWORDS : List String :=
  ["a", "an", "and", "are", "as", "at", "be", "by", "for", "from", "has", "have",
   "i", "in", "is", "it", "its", "of", "on", "or", "that", "the", "this", "to",
   "was", "were", "will", "with", "you", "your", "youre",
   String.mk (['y', 'o', 'u'] ++ [apoChar] ++ ['r', 'e']), "me", "we", "our",
   "about", "after", "again", "all", "also", "am", "among", "around", "because",
   "before", "being", "between", "can", "cant", "could", "couldn", "did", "didn",
   "do", "does", "doesn", "doing", "don", "down", "during", "each",
   "few", "first", "get", "got", "had", "hadn", "he", "her", "here", "hers",
   "herself", "him", "himself", "his", "how", "however", "if", "into", "isn",
   "just", "least", "less", "let", "like", "likely", "lot", "lots", "many",
   "more", "most", "much", "must", "my", "myself", "need", "needs", "never",
   "no", "nor", "not", "now", "off", "once", "only", "other", "others", "over",
   "per", "quite", "rather", "really", "said", "same", "say", "says",
   "she", "should", "shouldn", "some", "still", "such", "than", "then", "there",
   "these", "they", "things", "those", "through", "too", "under", "until", "up",
   "upon", "us", "use", "used", "using", "very", "via", "want", "wants",
   "wasn", "well", "what", "when", "where", "whether", "which", "who", "whom",
   "why", "would", "wouldn", "yes", "yet"]

/-- Character class of the word regex `[A-Za-z']`. -/
def isWordRunChar (c : Char) : Bool := c.isAlpha || c == apoChar

/-- Maximal runs of characters satisfying `p`; the accumulator holds the
current run reversed. -/
def splitRunsGo (p : Char → Bool) : List Char → List Char → List (List Char)
  | [], acc => if acc.isEmpty then [] else [acc.reverse]
  | c :: cs, acc =>
    if p c then splitRunsGo p cs (c :: acc)
    else if acc.isEmpty then splitRunsGo p cs [] else acc.reverse :: splitRunsGo p cs []

/-- Maximal runs of characters satisfying `p` within a character list. -/
def splitRuns (p : Char → Bool) (cs : List Char) : List (List Char) := splitRunsGo p cs []

/-- Embedding of `WORD_RE.findall(text)` followed by lowering (src/app.py
lines 100 and 105).  The regex `[A-Za-z][A-Za-z']{2,}` matches greedily and
without overlap, which amounts to: within each maximal run of letters and
apostrophes, drop the leading apostrophes and keep the remainder when at
least three characters are left.  The matches are case-folded. -/
def wordCandidates (text : String) : List String :=
  (splitRuns isWordRunChar text.toList).filterMap (fun run =>
    let r := run.dropWhile (fun c => c == apoChar)
    if 3 ≤ r.length then some (String.mk (r.map Char.toLower)) else Option.none)

/-- Embedding of the words list of `suggest_keywords` (src/app.py line
105): lowercased word matches with stop-words removed. -/
def wordsOf (text : String) : List String :=
  (wordCandidates text).filter (fun w => decide (w ∉ STOPWORDS))

/-- Character class of the regex `\w`, modelled over ASCII letters, digits
and underscore. -/
def isHashWordChar (c : Char) : Bool := c.isAlphanum || c == '_'

/-- Embedding of `HASH_RE.findall(text)` followed by lowering (src/app.py
lines 101 and 106).  The regex `#(\w{2,})` captures, after each `#`, the
maximal following run of word characters whenever it has at least two;
captures are case-folded.  Single pass; a `some` accumulator holds the
reversed run collected since the last `#`. -/
def hashGo : List Char → Option (List Char) → List String
  | [], Option.none => []
  | [], some acc => if 2 ≤ acc.length then [String.mk (acc.reverse.map Char.toLower)] else []
  | c :: cs, some acc =>
    if isHashWordChar c then hashGo cs (some (c :: acc))
    else
      (if 2 ≤ acc.length then [String.mk (acc.reverse.map Char.toLower)] else []) ++
        hashGo cs (if c == '#' then some [] else Option.none)
  | c :: cs, Option.none =>
    if c == '#' then hashGo cs (some []) else hashGo cs Option.none

/-- Lowercased hashtag captures of a text (src/app.py line 106). -/
def hashtagsOf (text : String) : List String := hashGo text.toList Option.none

/-- The combined term stream of `suggest_keywords` (src/app.py line 107):
stop-word-filtered words, then hashtag captures.  The hashtag stream is
NOT stop-word filtered. -/
def termsOf (text : String) : List String := wordsOf text ++ hashtagsOf text

/-- Embedding of `suggest_keywords` (src/app.py lines 103-110): empty text
yields no suggestions; otherwise the combined terms are counted with
`pd.Series(terms).value_counts()` — distinct terms in first-occurrence
order, sorted descending by count with the default quicksort kind, whose
tie order is unspecified above numpy's insertion-sort cutoff and is
modelled here by the admissible stable outcome — and the first `top_n`
keys are returned. -/
def suggest_keywords (text : String) (top_n : ℕ) : List String :=
  if text = "" then []
  else
    let terms := termsOf text
    if terms = [] then []
    else (pandasSortDesc (fun k => terms.count k) (dedupFirst terms)).take top_n

/-- One post row as selected by `_explode_keywords` (src/app.py line 167):
the stored keywords value (NULL modelled as `Option.none`) and the four
raw metrics. -/
structure KPost where
  keywords : Option String
  reach : ℕ
  likes : ℕ
  follows_gained : ℕ
  email_captures : ℕ
  deriving DecidableEq

/-- One exploded keyword row (src/app.py line 177). -/
structure KRow where
  keyword : String
  reach : ℕ
  likes : ℕ
  follows_gained : ℕ
  email_captures : ℕ
  deriving DecidableEq

/-- Replace every semicolon by a comma (src/app.py line 170). -/
def pyReplaceSemi (s : String) : String :=
  String.mk (s.toList.map (fun c => if c == ';' then ',' else c))

/-- Split at every comma, keeping empty pieces, as Python `str.split(",")`
does; the accumulator holds the current piece reversed. -/
def splitCommaGo : List Char → List Char → List String
  | [], acc => [String.mk acc.reverse]
  | c :: cs, acc =>
    if c == ',' then String.mk acc.reverse :: splitCommaGo cs []
    else splitCommaGo cs (c :: acc)

/-- Python `s.split(",")`. -/
def pySplitComma (s : String) : List String := splitCommaGo s.toList []

/-- Python `s.strip()`: drop leading and trailing whitespace. -/
def pyStrip (s : String) : String := String.mk (stripWS s.toList)

/-- Python `s.lower()`, on the ASCII data at issue. -/
def pyLower (s : String) : String := String.mk (s.toList.map Char.toLower)

/-- Token list of one keywords value (src/app.py lines 169-171): semicolons
replaced by commas, split on commas, each piece kept when nonempty and
nonblank (`if k and k.strip()`), then stripped and lowercased. -/
def keywordTokens (s : String) : List String :=
  ((pySplitComma (pyReplaceSemi s)).filter
    (fun k => !(k == "") && !(pyStrip k == ""))).map (fun k => pyLower (pyStrip k))

/-- Embedding of `_explode_keywords` (src/app.py lines 164-177): each
post's keywords value (NULL filled with "" on line 168) is tokenized, and
the frame is exploded to one row per token carrying that post's four
metrics.  A post whose token list is empty explodes to a single NaN row,
which the `notna()`/`ne("")` filters on line 174 drop, so such posts
contribute no rows. -/
def explode_keywords : List KPost → List KRow
  | [] => []
  | p :: ps =>
    ((keywordTokens (p.keywords.getD "")).map (fun k =>
      { keyword := k, reach := p.reach, likes := p.likes,
        follows_gained := p.follows_gained, email_captures := p.email_captures })) ++
      explode_keywords ps

/-- C1: in every aggregated group whose summed reach is 0, the three
derived rates `like_rate`, `follow_rate` and `capture_rate` are each
exactly 0, whatever the values of likes, follows gained and email
captures; the helper takes its zero-divisor branch, so no error and no
non-finite value can arise. -/
theorem reach_zero_rates_zero (g : AggGroup) (h : g.reach = 0) :
    like_rate g = 0 ∧ follow_rate g = 0 ∧ capture_rate g = 0 := by
  refine ⟨?_, ?_, ?_⟩ <;> simp [like_rate, follow_rate, capture_rate, sdiv, pyFloat, h]

/-- Witness for C1: a concrete group with zero reach and nonzero
numerators has all three rates equal to 0. -/
theorem reach_zero_rates_zero_witness :
    like_rate ⟨"style", 0, 5, 6, 7⟩ = 0 ∧ follow_rate ⟨"style", 0, 5, 6, 7⟩ = 0 ∧
      capture_rate ⟨"style", 0, 5, 6, 7⟩ = 0 :=
  reach_zero_rates_zero ⟨"style", 0, 5, 6, 7⟩ rfl

/-- C9: with the all-zero weight vector the composite scorer divides by
the epsilon floor `1e-9` instead of zero, so no division error occurs and
every group receives the score 0 exactly. -/
theorem composite_zero_weights (g : AggGroup) :
    success_score 0 0 0 g = Except.ok 0 := by
  have ht : max ((0 : ℚ) + 0 + 0) (1 / 1000000000) = 1 / 1000000000 := by norm_num
  have hd : pyDiv 0 ((1 : ℚ) / 1000000000) = Except.ok 0 := by
    unfold pyDiv
    norm_num
  simp only [success_score, ht, hd]
  norm_num

/-- C10: the shared division helper `sdiv` is total over the model values
— it returns 0 when either argument fails to convert to a float or the
divisor converts to 0, and the true quotient otherwise; in every case it
returns a number rather than propagating an exception. -/
theorem sdiv_total (a b : PyVal) :
    (pyFloat a = Except.error () → sdiv a b = 0) ∧
    (pyFloat b = Except.error () → sdiv a b = 0) ∧
    (pyFloat b = Except.ok 0 → sdiv a b = 0) ∧
    (∀ x y : ℚ, pyFloat a = Except.ok x → pyFloat b = Except.ok y → y ≠ 0 →
      sdiv a b = x / y) := by
  unfold sdiv
  cases ha : pyFloat a with
  | error e =>
    cases hb : pyFloat b with
    | error f =>
      exact ⟨fun _ => rfl, fun _ => rfl, fun h => Except.noConfusion h,
        fun u v hu hv _ => Except.noConfusion hu⟩
    | ok y =>
      exact ⟨fun _ => rfl, fun h => Except.noConfusion h, fun _ => rfl,
        fun u v hu hv _ => Except.noConfusion hu⟩
  | ok x =>
    cases hb : pyFloat b with
    | error f =>
      exact ⟨fun h => Except.noConfusion h, fun _ => rfl, fun h => Except.noConfusion h,
        fun u v hu hv _ => Except.noConfusion hv⟩
    | ok y =>
      refine ⟨fun h => Except.noConfusion h, fun h => Except.noConfusion h, ?_, ?_⟩
      · intro h
        injection h with h0
        simp [h0]
      · intro u v hu hv hv0
        injection hu with hu0
        injection hv with hv0'
        subst hu0
        subst hv0'
        simp [hv0]

/-- Witness for C10: a non-numeric string numerator, a None numerator and
a zero divisor each concretely yield 0. -/
theorem sdiv_total_witness :
    sdiv (PyVal.str "not a number") (PyVal.int 5) = 0 ∧
      sdiv PyVal.none (PyVal.int 3) = 0 ∧ sdiv (PyVal.int 7) (PyVal.int 0) = 0 :=
  ⟨(sdiv_total (PyVal.str "not a number") (PyVal.int 5)).1 rfl,
   (sdiv_total PyVal.none (PyVal.int 3)).1 rfl,
   (sdiv_total (PyVal.int 7) (PyVal.int 0)).2.2.1 (by norm_num [pyFloat])⟩

/-- C5: exploding the keywords value "a, a;b" of a single post splits on
both delimiters, trims, lowercases, and emits one row per surviving token
without deduplication: exactly two rows for "a" and one row for "b", each
carrying that post's four metrics. -/
theorem explode_keywords_dup (r l f e : ℕ) :
    explode_keywords [⟨some "a, a;b", r, l, f, e⟩] =
      [⟨"a", r, l, f, e⟩, ⟨"a", r, l, f, e⟩, ⟨"b", r, l, f, e⟩] := by
  show (keywordTokens "a, a;b").map _ ++ explode_keywords [] = _
  have hk : keywordTokens "a, a;b" = ["a", "a", "b"] := by decide
  rw [hk]
  rfl

/-- C4: the Insights ranking distinguishes its two empty outcomes — a
non-empty input all of whose aggregated groups fall below the reach
threshold yields the all-filtered signal, an empty input yields the
no-data signal, and the two signals are distinct values. -/
theorem ranker_empty_signals (rows : List SRow) (minReach : ℕ) (key : AggGroup → ℚ)
    (topN : ℕ) :
    (rows ≠ [] → (∀ g ∈ aggregate rows, g.reach < minReach) →
      insightsPipeline rows minReach key topN = RankOutcome.allFiltered) ∧
    insightsPipeline [] minReach key topN = RankOutcome.noData ∧
    RankOutcome.allFiltered ≠ RankOutcome.noData := by
  refine ⟨?_, rfl, by simp⟩
  intro hne hall
  cases rows with
  | nil => exact absurd rfl hne
  | cons r rs =>
    have hgf : (aggregate (r :: rs)).filter (fun x => decide (minReach ≤ x.reach)) = [] := by
      rw [List.filter_eq_nil_iff]
      intro g hg
      simpa using Nat.not_le.2 (hall g hg)
    simp [insightsPipeline, hgf]

/-- Witness for C4: one post with reach 5 against threshold 100 produces
the all-filtered signal, while the empty input produces the distinct
no-data signal. -/
theorem ranker_empty_signals_witness :
    insightsPipeline [⟨some "a", 5, 1, 0, 0⟩] 100 (fun g => (g.reach : ℚ)) 10 =
        RankOutcome.allFiltered ∧
      insightsPipeline [] 100 (fun g => (g.reach : ℚ)) 10 = RankOutcome.noData :=
  ⟨(ranker_empty_signals [⟨some "a", 5, 1, 0, 0⟩] 100 (fun g => (g.reach : ℚ)) 10).1
      (List.cons_ne_nil _ _) (by decide),
   (ranker_empty_signals [] 100 (fun g => (g.reach : ℚ)) 10).2.1⟩

/-- C6 counterexample: the text consisting of the single hashtag `#the`
yields the suggestion list `["the"]`, although `the` belongs to the
stop-word set — hashtag tokens are not stop-word filtered, contradicting
the claim that no stop-word ever appears in the output. -/
theorem stopword_hashtag_cex :
    suggest_keywords "#the" 15 = ["the"] ∧ "the" ∈ STOPWORDS := by
  exact ⟨by decide, by decide⟩

/-- C6 amended: stop-words are removed from the plain-word token stream
only, so every suggested keyword either is not a stop-word or arose as a
hashtag capture; a stop-word can appear in the output exactly when it
occurs as a hashtag. -/
theorem stopword_filter_amended (text : String) (top_n : ℕ) (k : String)
    (hk : k ∈ suggest_keywords text top_n) :
    k ∉ STOPWORDS ∨ k ∈ hashtagsOf text := by
  by_cases h0 : text = ""
  · simp [suggest_keywords, h0] at hk
  · by_cases h1 : termsOf text = []
    · simp [suggest_keywords, h0, h1] at hk
    · have hk2 : k ∈ pandasSortDesc (fun k => (termsOf text).count k)
          (dedupFirst (termsOf text)) := by
        simp only [suggest_keywords, if_neg h0, if_neg h1] at hk
        exact List.take_subset _ _ hk
      have hk3 : k ∈ dedupFirst (termsOf text) :=
        (pandasSortDesc_perm _ _).mem_iff.1 hk2
      have hk4 : k ∈ termsOf text := (mem_dedupFirst _ k).1 hk3
      rcases List.mem_append.1 hk4 with hw | hh
      · left
        unfold wordsOf at hw
        have := (List.mem_filter.1 hw).2
        simpa using this
      · right
        exact hh

/-- Witness for C6 amended: `the` is suggested for the text `#the`, and it
indeed arose as a hashtag capture. -/
theorem stopword_filter_amended_witness :
    "the" ∈ suggest_keywords "#the" 15 ∧
      ("the" ∉ STOPWORDS ∨ "the" ∈ hashtagsOf "#the") :=
  ⟨by decide, stopword_filter_amended "#the" 15 "the" (by decide)⟩

theorem nextMonday_mod (d : ℤ) : nextMonday d % 7 = 0 := by
  unfold nextMonday monday_of
  omega

theorem nextMonday_mono {d1 d2 : ℤ} (h : d1 ≤ d2) : nextMonday d1 ≤ nextMonday d2 := by
  unfold nextMonday monday_of
  omega

theorem nextMonday_eq_iff (d L : ℤ) (hL : L % 7 = 0) :
    nextMonday d = L ↔ (L - 6 ≤ d ∧ d ≤ L) := by
  unfold nextMonday monday_of
  omega

theorem foldlMin_le (l : List TPost) (z : ℤ) :
    l.foldl (fun m q => min m q.date) z ≤ z ∧
      ∀ q ∈ l, l.foldl (fun m q => min m q.date) z ≤ q.date := by
  induction l generalizing z with
  | nil => exact ⟨le_refl z, by simp⟩
  | cons p ps ih =>
    refine ⟨((ih (min z p.date)).1).trans (min_le_left _ _), ?_⟩
    intro q hq
    rcases List.mem_cons.1 hq with rfl | hq2
    · exact ((ih (min z q.date)).1).trans (min_le_right _ _)
    · exact (ih (min z p.date)).2 q hq2

theorem foldlMax_ge (l : List TPost) (z : ℤ) :
    z ≤ l.foldl (fun m q => max m q.date) z ∧
      ∀ q ∈ l, q.date ≤ l.foldl (fun m q => max m q.date) z := by
  induction l generalizing z with
  | nil => exact ⟨le_refl z, by simp⟩
  | cons p ps ih =>
    refine ⟨(le_max_left _ _).trans ((ih (max z p.date)).1), ?_⟩
    intro q hq
    rcases List.mem_cons.1 hq with rfl | hq2
    · exact (le_max_right _ _).trans ((ih (max z q.date)).1)
    · exact (ih (max z p.date)).2 q hq2

/-- Summed metrics of the posts whose dates fall in the 7-day window
ENDING on the day `L` — the window pandas actually sums into the bin
labeled `L` under `resample("W-MON")`. -/
def bucketWindow (posts : List TPost) (L : ℤ) : WBucket :=
  { label := L
    reach := ((posts.filter (fun p => decide (L - 6 ≤ p.date ∧ p.date ≤ L))).map
      TPost.reach).sum
    likes := ((posts.filter (fun p => decide (L - 6 ≤ p.date ∧ p.date ≤ L))).map
      TPost.likes).sum
    follows_gained := ((posts.filter (fun p => decide (L - 6 ≤ p.date ∧ p.date ≤ L))).map
      TPost.follows_gained).sum
    email_captures := ((posts.filter (fun p => decide (L - 6 ≤ p.date ∧ p.date ≤ L))).map
      TPost.email_captures).sum }

theorem label_mem_range_buckets (posts : List TPost) (lo : ℤ) (n : ℕ) (L : ℤ)
    (hlo : lo ≤ L) (hn : L < lo + 7 * n) (h7 : lo % 7 = 0) (hL : L % 7 = 0) :
    ∃ c ∈ (List.range n).map (fun i : ℕ => bucketOf posts (lo + 7 * (i : ℤ))),
      c.label = L := by
  have hj : ((L - lo).toNat / 7) ∈ List.range n := List.mem_range.2 (by omega)
  refine ⟨_, List.mem_map_of_mem _ hj, ?_⟩
  show lo + 7 * ((((L - lo).toNat / 7 : ℕ)) : ℤ) = L
  omega

theorem bucketOf_eq_window (posts : List TPost) (L : ℤ) (hL : L % 7 = 0) :
    bucketOf posts L = bucketWindow posts L := by
  have hfil : posts.filter (fun p => decide (nextMonday p.date = L)) =
      posts.filter (fun p => decide (L - 6 ≤ p.date ∧ p.date ≤ L)) := by
    apply List.filter_congr
    intro q _
    rw [decide_eq_decide]
    exact nextMonday_eq_iff q.date L hL
  simp only [bucketOf, bucketWindow, hfil]

/-- C2 counterexample: posts in week 1 (day 0) and week 3 (day 14) with no
post in week 2 produce THREE buckets, including a synthetic all-zero
bucket labeled day 7 for the empty week 2 — not the two buckets the claim
requires. -/
theorem resample_zero_fill_cex :
    weeklyResample [⟨0, 1, 0, 0, 0⟩, ⟨14, 2, 0, 0, 0⟩] =
        [⟨0, 1, 0, 0, 0⟩, ⟨7, 0, 0, 0, 0⟩, ⟨14, 2, 0, 0, 0⟩] ∧
      (weeklyResample [⟨0, 1, 0, 0, 0⟩, ⟨14, 2, 0, 0, 0⟩]).length ≠ 2 := by
  exact ⟨by decide, by decide⟩

/-- C2 amended: pandas resampling emits one bucket for every weekly bin
from the first occupied one to the last, zero-filling the empty ones:
posts in week 1 and week 3 with none in week 2 produce exactly three
buckets, the middle one present with all four metrics zero, whatever the
posts' metrics are. -/
theorem resample_zero_fill_amended (r1 l1 f1 e1 r2 l2 f2 e2 : ℕ) :
    weeklyResample [⟨0, r1, l1, f1, e1⟩, ⟨14, r2, l2, f2, e2⟩] =
      [⟨0, r1, l1, f1, e1⟩, ⟨7, 0, 0, 0, 0⟩, ⟨14, r2, l2, f2, e2⟩] := by
  rfl

/-- C3 counterexample: a single post on day 1, a Tuesday, is emitted in
the bucket labeled day 7 — while the Monday on or before its date is day
0, and the post's date does not lie in the 7 days starting at the emitted
label. -/
theorem resample_bucket_label_cex :
    weeklyResample [⟨1, 10, 2, 3, 4⟩] = [⟨7, 10, 2, 3, 4⟩] ∧
      monday_of 1 = 0 ∧ ¬ ((7 : ℤ) ≤ 1 ∧ (1 : ℤ) < 7 + 7) := by
  exact ⟨by decide, by decide, by decide⟩

/-- C3 amended: every emitted bucket is labeled by a Monday and sums
exactly the posts whose dates fall in the seven days ENDING on that Monday
(each post goes to the bucket of the Monday on or AFTER its date), and
every post's bucket label is emitted. -/
theorem resample_bucket_window_amended (posts : List TPost) (b : WBucket)
    (hb : b ∈ weeklyResample posts) :
    b.label % 7 = 0 ∧ b = bucketWindow posts b.label ∧
      ∀ p ∈ posts, ∃ c ∈ weeklyResample posts, c.label = nextMonday p.date := by
  cases posts with
  | nil => simp [weeklyResample] at hb
  | cons p ps =>
    simp only [weeklyResample] at hb
    rcases List.mem_map.1 hb with ⟨i, hi, rfl⟩
    have hlomod := nextMonday_mod (ps.foldl (fun m q => min m q.date) p.date)
    have hlab : (bucketOf (p :: ps)
        (nextMonday (ps.foldl (fun m q => min m q.date) p.date) + 7 * (i : ℤ))).label =
        nextMonday (ps.foldl (fun m q => min m q.date) p.date) + 7 * (i : ℤ) := rfl
    refine ⟨?_, ?_, ?_⟩
    · rw [hlab]
      omega
    · rw [hlab]
      exact bucketOf_eq_window _ _ (by omega)
    · intro q hq
      have hmin : ps.foldl (fun m q => min m q.date) p.date ≤ q.date := by
        rcases List.mem_cons.1 hq with rfl | hq2
        · exact (foldlMin_le ps q.date).1
        · exact (foldlMin_le ps p.date).2 q hq2
      have hmax : q.date ≤ ps.foldl (fun m q => max m q.date) p.date := by
        rcases List.mem_cons.1 hq with rfl | hq2
        · exact (foldlMax_ge ps q.date).1
        · exact (foldlMax_ge ps p.date).2 q hq2
      have hlo2 := nextMonday_mono hmin
      have hhi2 := nextMonday_mono hmax
      have hqmod := nextMonday_mod q.date
      have hhimod := nextMonday_mod (ps.foldl (fun m q => max m q.date) p.date)
      simp only [weeklyResample]
      apply label_mem_range_buckets
      · exact hlo2
      · omega
      · exact hlomod
      · exact hqmod

/-- Witness for C3 amended at the Tuesday post: the bucket labeled day 7
is emitted, its label is a Monday, it equals the 7-day window ending on
day 7, and the post's next-Monday label occurs among the buckets. -/
theorem resample_bucket_window_amended_witness :
    (⟨7, 10, 2, 3, 4⟩ : WBucket) ∈ weeklyResample [⟨1, 10, 2, 3, 4⟩] ∧
      ((7 : ℤ) % 7 = 0 ∧
        (⟨7, 10, 2, 3, 4⟩ : WBucket) = bucketWindow [⟨1, 10, 2, 3, 4⟩] (7 : ℤ) ∧
        ∀ p ∈ [(⟨1, 10, 2, 3, 4⟩ : TPost)],
          ∃ c ∈ weeklyResample [⟨1, 10, 2, 3, 4⟩], c.label = nextMonday p.date) :=
  ⟨by decide,
   resample_bucket_window_amended [⟨1, 10, 2, 3, 4⟩] ⟨7, 10, 2, 3, 4⟩ (by decide)⟩

/-- Caption consisting of twenty distinct non-stop-word tokens, each
occurring once: a concrete input on which the keyword ranking is decided
entirely by the tie order of the counts sort, with the tied key array
larger than numpy introsort's stable insertion-sort cutoff. -/
def twentyTiedCaption : String :=
  String.intercalate " "
    ["alpha", "bravo", "charlie", "delta", "echo", "foxtrot", "golf", "hotel",
     "india", "juliett", "kilo", "lima", "mike", "november", "oscar", "papa",
     "quebec", "romeo", "sierra", "tango"]

/-- C7 failing-input evaluation: on the twenty-word caption the extractor
reaches the `value_counts` sort with twenty distinct terms, every one of
frequency 1 and none removed as a stop-word, and all twenty are returned
for `top_n = 20` — so the entire returned order is decided by the tie
order of the default quicksort kind, which the program leaves unspecified
for arrays of this size instead of fixing it to first-occurrence order. -/
theorem suggest_keywords_tied_counts :
    (dedupFirst (termsOf twentyTiedCaption)).length = 20 ∧
      (∀ k ∈ dedupFirst (termsOf twentyTiedCaption),
        (termsOf twentyTiedCaption).count k = 1) ∧
      (suggest_keywords twentyTiedCaption 20).length = 20 := by
  refine ⟨by decide, by decide, by decide⟩

/-- Twenty Insights rows with pairwise distinct campaign labels and
identical metrics: a concrete input whose twenty aggregated groups all tie
on every ranking key the page offers. -/
def twentyTiedRows : List SRow :=
  [⟨some "c01", 100, 40, 10, 5⟩, ⟨some "c02", 100, 40, 10, 5⟩,
   ⟨some "c03", 100, 40, 10, 5⟩, ⟨some "c04", 100, 40, 10, 5⟩,
   ⟨some "c05", 100, 40, 10, 5⟩, ⟨some "c06", 100, 40, 10, 5⟩,
   ⟨some "c07", 100, 40, 10, 5⟩, ⟨some "c08", 100, 40, 10, 5⟩,
   ⟨some "c09", 100, 40, 10, 5⟩, ⟨some "c10", 100, 40, 10, 5⟩,
   ⟨some "c11", 100, 40, 10, 5⟩, ⟨some "c12", 100, 40, 10, 5⟩,
   ⟨some "c13", 100, 40, 10, 5⟩, ⟨some "c14", 100, 40, 10, 5⟩,
   ⟨some "c15", 100, 40, 10, 5⟩, ⟨some "c16", 100, 40, 10, 5⟩,
   ⟨some "c17", 100, 40, 10, 5⟩, ⟨some "c18", 100, 40, 10, 5⟩,
   ⟨some "c19", 100, 40, 10, 5⟩, ⟨some "c20", 100, 40, 10, 5⟩]

/-- C8 failing-input evaluation: the twenty-row input passes the zero
reach threshold with exactly twenty aggregated groups, every one with
summed reach 100 — all twenty tie on the reach ranking key (and, having
identical metrics, on every other key) — so their rendered order is left
entirely to the tie order of the default quicksort kind, which the program
does not fix to the pre-sort aggregation order. -/
theorem ranker_tied_groups :
    ((aggregate twentyTiedRows).filter (fun g => decide ((0 : ℕ) ≤ g.reach))).length = 20 ∧
      ∀ g ∈ (aggregate twentyTiedRows).filter (fun g => decide ((0 : ℕ) ≤ g.reach)),
        g.reach = 100 := by
  have hfil : ((aggregate twentyTiedRows).filter (fun g => decide ((0 : ℕ) ≤ g.reach)))
      = aggregate twentyTiedRows :=
    List.filter_eq_self.2 (fun a _ => by simp)
  rw [hfil]
  constructor
  · unfold aggregate
    rw [List.length_map, (sortAsc_perm id _).length_eq]
    decide
  · intro g hg
    unfold aggregate at hg
    rcases List.mem_map.1 hg with ⟨v, hv, rfl⟩
    have hv2 : v ∈ dedupFirst (twentyTiedRows.map (fun r => normLabel r.label)) :=
      (sortAsc_perm id _).mem_iff.1 hv
    have hall : ∀ x ∈ dedupFirst (twentyTiedRows.map (fun r => normLabel r.label)),
        ((twentyTiedRows.filter (fun r => decide (normLabel r.label = x))).map
          SRow.reach).sum = 100 := by decide
    exact hall v hv2
